import Mathlib

/-!
Verification of the treee point-cloud import pipeline.

The development shallowly embeds the parts of the repository that the
checked properties are about:

* `src/importer/src/calculations.rs` — the per-segment geometry pass
  (`calculate`, `map_to_u32`, the height-slice dispersion profile and the
  trunk/crown separation);
* `src/importer/src/lib.rs` — the `run` entry point's error handling and
  the segment-id assignment performed after the random shuffle;
* `src/project/src/lib.rs` — `MAX_LEAF_SIZE` and the `DataFile`
  save/read container.

Numeric conventions.  The Rust code computes in `f32`; the embedding
models the arithmetic exactly over `ℚ`.  Division by zero in `ℚ` is `0`;
wherever the Rust code can produce a `NaN` that is subsequently cast to
`u32` (which yields `0`), the `ℚ` model provably yields the same `0`, so
the two agree on every observable value (this is re-derived at each use
site below).  The literal `u32::MAX as f32` rounds to `2^32` (the nearest
`f32` to `4294967295` is `4294967296.0`); multiplying an `f32` by this
power of two is exact, so the cast-based model of `map_to_u32` below is
exact f32 semantics rather than an approximation.

Code of the repository that is not under `src/` (the `math` and
`k_nearest` workspace crates, and the importer modules `segment.rs`,
`tree.rs`, `cache.rs`) is modelled from the specification; every such
definition carries a doc comment saying so.
-/

/-- Model of `math::Vector<3, f32>`: an exact-rational 3-vector.  Field
`x`/`y`/`z` mirror the `X`/`Y`/`Z` dimension indices; `y` is the vertical
axis. -/
structure V3 where
  x : ℚ
  y : ℚ
  z : ℚ
deriving DecidableEq, Inhabited

/-- Model of `math::Mat<3, f32>`: three rows, row `d` indexed like the
Rust `mat[d + e]` pairs.  Also used for the eigenvector triple returned
by the (modelled) `calculate_eigenvectors`, whose row `z` is the
eigenvector for the smallest eigenvalue. -/
structure M3 where
  x : V3
  y : V3
  z : V3
deriving DecidableEq

/-- Zero vector, the `getD` default for out-of-range point indexing. -/
def v3zero : V3 := ⟨0, 0, 0⟩

/-- Squared Euclidean distance between two points (exact). -/
def sqDist (p q : V3) : ℚ :=
  (p.x - q.x) ^ 2 + (p.y - q.y) ^ 2 + (p.z - q.z) ^ 2

/-- Squared Euclidean norm of a vector (exact). -/
def normSq (v : V3) : ℚ := v.x ^ 2 + v.y ^ 2 + v.z ^ 2

/-- Model of Rust's `as u32` cast from `f32`: truncate toward zero and
saturate to `[0, u32::MAX]`; a `NaN` input is handled separately (see
`FloatVal`). -/
def castU32 (v : ℚ) : ℕ := min (Int.toNat ⌊v⌋) 4294967295

/-- Embedding of `map_to_u32` (src/importer/src/calculations.rs:168):
`(value * u32::MAX as f32) as u32`.  The constant `u32::MAX as f32` is
exactly `2^32 = 4294967296` after f32 rounding, and multiplying by a
power of two is exact in binary floating point, so this model is the
exact value computed by the Rust code for every finite input. -/
def map_to_u32 (value : ℚ) : ℕ := castU32 (value * 4294967296)

/-- Non-finite-aware `f32` input domain for `map_to_u32`, used to state
its totality over every `f32` (finite values, the two infinities and
`NaN`). -/
inductive FloatVal where
  | nan : FloatVal
  | posInf : FloatVal
  | negInf : FloatVal
  | val : ℚ → FloatVal
deriving DecidableEq

/-- Total model of `map_to_u32` over the whole `f32` domain:
`NaN * 2^32 = NaN` casts to `0`, `±∞ * 2^32 = ±∞` cast to the saturation
bounds, and finite values follow `map_to_u32`. -/
def map_to_u32_total : FloatVal → ℕ
  | .nan => 0
  | .posInf => 4294967295
  | .negInf => 0
  | .val q => map_to_u32 q

/-- Model of `common::Value::RelativeHeight { absolute, percent }`. -/
structure RelativeHeight where
  absolute : ℚ
  percent : ℚ
deriving DecidableEq

/-- Embedding of `SegmentInformation`
(src/importer/src/calculations.rs:9). -/
structure SegmentInformation where
  trunkHeight : RelativeHeight
  crownHeight : RelativeHeight
deriving DecidableEq

/-- Embedding of the output `Point` (src/importer/src/point.rs, as used
by `calculate`): render position/normal/size plus the per-point segment,
slice, sub-index and curvature attributes. -/
structure CPoint where
  position : V3
  normal : V3
  size : ℚ
  segment : ℕ
  slice : ℕ
  subIndex : ℕ
  curve : ℕ
deriving DecidableEq, Inhabited

/-- Environment of repository code that `calculate` links against but
whose sources are not under `src/`.  Modelled from the spec:
* `sqrtQ` stands for `f32::sqrt` (used to normalize each slice's
  dispersion by the square root of its point count);
* `knn` stands for `NeighborsTree::get` over the `k_nearest` crate's
  k-d tree: for a query point it returns up to `MAX_NEIGHBORS` pairs of
  (distance, point index), nearest first, the self-match first of all
  (see `KnnSpec`);
* `eigenvalues` stands for `math::Mat::fast_eigenvalues` (closed-form
  symmetric 3×3 eigenvalues, in decreasing order, so `.z` is the
  smallest);
* `eigenvectors` stands for `math::Mat::calculate_eigenvectors` (unit
  eigenvectors for the given eigenvalues; row `.z` belongs to the
  smallest eigenvalue). -/
structure MathEnv where
  sqrtQ : ℚ → ℚ
  knn : V3 → List (ℚ × ℕ)
  eigenvalues : M3 → V3
  eigenvectors : M3 → V3 → M3

/-- Embedding of `MAX_NEIGHBORS` (src/importer/src/calculations.rs:7). -/
def MAX_NEIGHBORS : ℕ := 64 - 1

/-- Slice width used by `calculate`
(src/importer/src/calculations.rs:32): `0.05`. -/
def sliceWidth : ℚ := 1 / 20

/-- Minimal vertical coordinate of a point list: the `min` loop of
src/importer/src/calculations.rs:17-28 (defined as `0` on the empty list,
where the Rust code would panic on `data[0]`). -/
def minY : List V3 → ℚ
  | [] => 0
  | p :: rest => rest.foldl (fun m q => min m q.y) p.y

/-- Maximal vertical coordinate of a point list (same loop). -/
def maxY : List V3 → ℚ
  | [] => 0
  | p :: rest => rest.foldl (fun m q => max m q.y) p.y

/-- Number of height slices (src/importer/src/calculations.rs:34):
`((height / slice_width).ceil() as usize) + 1`. -/
def numSlices (data : List V3) : ℕ :=
  Int.toNat ⌈(maxY data - minY data) / sliceWidth⌉ + 1

/-- Height-slice index of a point
(src/importer/src/calculations.rs:37): `((pos.y - min) / slice_width) as
usize` (truncation = floor for the non-negative values that occur). -/
def sliceIdxOf (minv : ℚ) (p : V3) : ℕ :=
  Int.toNat ⌊(p.y - minv) / sliceWidth⌋

/-- Points of `data` falling into slice `i`. -/
def sliceMembers (data : List V3) (minv : ℚ) (i : ℕ) : List V3 :=
  data.filter (fun p => sliceIdxOf minv p == i)

/-- Number of points in slice `i` (the `means[idx].1` counter). -/
def sliceCount (data : List V3) (minv : ℚ) (i : ℕ) : ℕ :=
  (sliceMembers data minv i).length

/-- Mean horizontal (x, z) offset of slice `i`
(src/importer/src/calculations.rs:35-43); sum divided by the count, `0`
for an empty slice where the Rust code produces an unused `NaN`. -/
def sliceMean (data : List V3) (minv : ℚ) (i : ℕ) : ℚ × ℚ :=
  let ms := sliceMembers data minv i
  (((ms.map V3.x).sum) / ms.length, ((ms.map V3.z).sum) / ms.length)

/-- Summed squared horizontal deviation of slice `i` from its mean
(src/importer/src/calculations.rs:44-48). -/
def sliceSqSum (data : List V3) (minv : ℚ) (i : ℕ) : ℚ :=
  let m := sliceMean data minv i
  ((sliceMembers data minv i).map
    (fun p => (m.1 - p.x) ^ 2 + (m.2 - p.z) ^ 2)).sum

/-- Dispersion of slice `i`
(src/importer/src/calculations.rs:51): the squared-deviation sum divided
by the square root of the slice's point count. -/
def sliceDispersion (env : MathEnv) (data : List V3) (minv : ℚ) (i : ℕ) : ℚ :=
  sliceSqSum data minv i / env.sqrtQ (sliceCount data minv i)

/-- Maximal dispersion across slices
(src/importer/src/calculations.rs:49-55): fold of `max` starting from
`0.0` (the `if variance[i] > max_var` update). -/
def maxDispersion (env : MathEnv) (data : List V3) : ℚ :=
  ((List.range (numSlices data)).map
    (fun i => sliceDispersion env data (minY data) i)).foldl max 0

/-- Mapped (32-bit) normalized dispersion of slice `i`
(src/importer/src/calculations.rs:56-60).  For an empty slice the Rust
code computes `NaN / max_var = NaN`, and `map_to_u32` casts `NaN` to `0`;
in the model the numerator is provably `0`, so both yield `0`. -/
def sliceMapped (env : MathEnv) (data : List V3) (i : ℕ) : ℕ :=
  map_to_u32 (sliceDispersion env data (minY data) i / maxDispersion env data)

/-- List of the mapped slice values (the `mapped` vector, which also
provides each output point's `slice` attribute). -/
def sliceMappedList (env : MathEnv) (data : List V3) : List ℕ :=
  (List.range (numSlices data)).map (sliceMapped env data)

/-- Trunk/crown separation slice index
(src/importer/src/calculations.rs:62-67): the first slice whose mapped
dispersion exceeds `u32::MAX / 3 = 1431655765` (integer division),
defaulting to `0`. -/
def sepIdx (env : MathEnv) (data : List V3) : ℕ :=
  ((sliceMappedList env data).findIdx? (fun v => 1431655765 < v)).getD 0

/-- Trunk/crown separation height
(src/importer/src/calculations.rs:69): `min + slice_width * sep`. -/
def trunkCrownSep (env : MathEnv) (data : List V3) : ℚ :=
  minY data + sliceWidth * (sepIdx env data : ℚ)

/-- Positions of the returned neighbors of query point `p` (the
`data[*neighbor]` lookups of src/importer/src/calculations.rs:79-87). -/
def nbrPositions (env : MathEnv) (data : List V3) (p : V3) : List V3 :=
  (env.knn p).map (fun e => data.getD e.2 v3zero)

/-- Mean of the neighbor positions
(src/importer/src/calculations.rs:77-83). -/
def nbrMean (env : MathEnv) (data : List V3) (p : V3) : V3 :=
  let ns := nbrPositions env data p
  ⟨((ns.map V3.x).sum) / ns.length,
   ((ns.map V3.y).sum) / ns.length,
   ((ns.map V3.z).sum) / ns.length⟩

/-- Covariance (scatter) matrix of the neighbor offsets from their mean
(src/importer/src/calculations.rs:84-100), each entry divided by the
neighbor count. -/
def covMat (env : MathEnv) (data : List V3) (p : V3) : M3 :=
  let ns := nbrPositions env data p
  let m := nbrMean env data p
  let e := fun (f g : V3 → ℚ) =>
    ((ns.map (fun q => (f q - f m) * (g q - g m))).sum) / ns.length
  ⟨⟨e V3.x V3.x, e V3.x V3.y, e V3.x V3.z⟩,
   ⟨e V3.y V3.x, e V3.y V3.y, e V3.y V3.z⟩,
   ⟨e V3.z V3.x, e V3.z V3.y, e V3.z V3.z⟩⟩

/-- Per-point result of the `calculate` map body
(src/importer/src/calculations.rs:72-123) for point index `i`. -/
def calculatePoint (env : MathEnv) (data : List V3) (segment : ℕ)
    (i : ℕ) : CPoint :=
  let minv := minY data
  let maxv := maxY data
  let p := data.getD i v3zero
  let nbrs := env.knn p
  let ev := env.eigenvalues (covMat env data p)
  let evec := env.eigenvectors (covMat env data p) ev
  let distSum := (nbrs.tail.map Prod.fst).sum
  { position := p
    normal := evec.z
    size := (1 / 3) * distSum / ((nbrs.length - 1 : ℕ) : ℚ)
    segment := segment
    slice := sliceMapped env data (sliceIdxOf minv p)
    subIndex := map_to_u32 ((p.y - minv) / (maxv - minv))
    curve := map_to_u32 ((3 * ev.z) / (ev.x + ev.y + ev.z)) }

/-- Embedding of `calculate`
(src/importer/src/calculations.rs:14-141): the per-point attribute list
together with the segment's trunk/crown information. -/
def calculate (env : MathEnv) (data : List V3) (segment : ℕ) :
    List CPoint × SegmentInformation :=
  let minv := minY data
  let maxv := maxY data
  let height := maxv - minv
  let sep := trunkCrownSep env data
  let pts := (List.range data.length).map (calculatePoint env data segment)
  (pts,
   { trunkHeight := { absolute := sep - minv, percent := (sep - minv) / height }
     crownHeight := { absolute := maxv - sep, percent := (maxv - sep) / height } })

/-- Specification of the (repository-external, spec-modelled)
`k_nearest` k-d tree query as used through `NeighborsTree::get`
(src/importer/src/calculations.rs:155-166): for every data point the
returned pairs are at most `MAX_NEIGHBORS`, nearest first with the
self-match (distance `0`, same position) first of all, each distance is
the non-negative Euclidean distance to the indexed data point, and all
results lie within the squared-distance cutoff `1000.0`. -/
structure KnnSpec (data : List V3) (knn : V3 → List (ℚ × ℕ)) : Prop where
  len_le : ∀ p ∈ data, (knn p).length ≤ MAX_NEIGHBORS
  head_self : ∀ p ∈ data, ∃ j, (knn p).head? = some (0, j) ∧
    j < data.length ∧ data.getD j v3zero = p
  idx_lt : ∀ p ∈ data, ∀ e ∈ knn p, e.2 < data.length
  dist_nonneg : ∀ p ∈ data, ∀ e ∈ knn p, 0 ≤ e.1
  dist_sq : ∀ p ∈ data, ∀ e ∈ knn p, e.1 ^ 2 = sqDist p (data.getD e.2 v3zero)
  sorted : ∀ p ∈ data, (knn p).Pairwise (fun a b => a.1 ≤ b.1)
  cutoff : ∀ p ∈ data, ∀ e ∈ knn p, e.1 ^ 2 ≤ 1000

/-- Claim-side restatement of the trunk/crown separation choice, written
from the claim's words: the lowest slice whose mapped normalized
dispersion exceeds one third of the maximum mapped dispersion across
slices, defaulting to slice `0`.  Compared with the source-side `sepIdx`
in the C4 theorem. -/
def sepIdxSpec (env : MathEnv) (data : List V3) : ℕ :=
  ((sliceMappedList env data).findIdx?
    (fun v => (sliceMappedList env data).foldr max 0 / 3 < v)).getD 0

/-- Embedding of `MAX_LEAF_SIZE` (src/project/src/lib.rs:12):
`1 << 15`. -/
def MAX_LEAF_SIZE : ℕ := 1 <<< 15

/-- Axis-aligned cube of an octree node: corner plus edge length. -/
structure Cube where
  corner : V3
  size : ℚ
deriving DecidableEq

/-- Modelled from the spec: the importer's octree node (`tree.rs` is not
under `src/`): a leaf holding a bounded point list or a branch with 8
children ("`Branch{up to 8 optional child references}` or `Leaf{bounded
point set, capacity ≤ MAX_LEAF_SIZE}`"). -/
inductive OTree where
  | leaf : List V3 → OTree
  | branch : (Fin 8 → OTree) → OTree

/-- Modelled from the spec: octant selection "comparing the point's
position against each node's center to choose an octant", one bit per
axis. -/
def octant (c : Cube) (p : V3) : Fin 8 :=
  let hx := if c.corner.x + c.size / 2 ≤ p.x then 1 else 0
  let hy := if c.corner.y + c.size / 2 ≤ p.y then 1 else 0
  let hz := if c.corner.z + c.size / 2 ≤ p.z then 1 else 0
  ⟨hx + 2 * hy + 4 * hz, by
    dsimp only [hx, hy, hz]
    split <;> split <;> split <;> decide⟩

/-- Cube of child octant `o`: half edge length, corner shifted by the
octant bits. -/
def childCube (c : Cube) (o : Fin 8) : Cube :=
  { corner := ⟨c.corner.x + (if o.val % 2 = 1 then c.size / 2 else 0),
               c.corner.y + (if o.val / 2 % 2 = 1 then c.size / 2 else 0),
               c.corner.z + (if o.val / 4 = 1 then c.size / 2 else 0)⟩
    size := c.size / 2 }

/-- Modelled from the spec: build a subtree for a point set, splitting
into 8 children by octant while a leaf would exceed `MAX_LEAF_SIZE`
("a leaf that would exceed MAX_LEAF_SIZE splits into 8 children,
redistributing its buffered points by octant").  `fuel` bounds the
subdivision depth; `none` models the (unterminating) degenerate case of
more than `MAX_LEAF_SIZE` mutually equal points. -/
def buildTree : ℕ → Cube → List V3 → Option OTree
  | 0, _, ps =>
    if ps.length ≤ MAX_LEAF_SIZE then some (.leaf ps) else none
  | fuel + 1, c, ps =>
    if ps.length ≤ MAX_LEAF_SIZE then some (.leaf ps) else
    if h : ∀ o : Fin 8, (buildTree fuel (childCube c o)
        (ps.filter (fun p => octant c p == o))).isSome then
      some (.branch (fun o => (buildTree fuel (childCube c o)
        (ps.filter (fun p => octant c p == o))).get (h o)))
    else none

/-- Modelled from the spec: insertion "descends the cube hierarchy by
comparing the point's position against each node's center to choose an
octant"; a full leaf is rebuilt as a branch via `buildTree`. -/
def insertTree (fuel : ℕ) : Cube → OTree → V3 → Option OTree
  | c, .leaf ps, p =>
    if ps.length < MAX_LEAF_SIZE then some (.leaf (p :: ps))
    else buildTree fuel c (p :: ps)
  | c, .branch ch, p =>
    let o := octant c p
    (insertTree fuel (childCube c o) (ch o) p).map
      (fun t => .branch (Function.update ch o t))

/-- Insert a stream of points into an initially empty tree. -/
def insertPoints (fuel : ℕ) (c : Cube) (ps : List V3) : Option OTree :=
  ps.foldlM (fun t p => insertTree fuel c t p) (.leaf [])

/-- Every leaf of the tree holds at most `MAX_LEAF_SIZE` points. -/
def leavesBounded : OTree → Prop
  | .leaf ps => ps.length ≤ MAX_LEAF_SIZE
  | .branch ch => ∀ o, leavesBounded (ch o)

/-- Concatenation of all leaf point lists (the tree's logical point
set). -/
def treePoints : OTree → List V3
  | .leaf ps => ps
  | .branch ch => (List.finRange 8).flatMap (fun o => treePoints (ch o))

/-- Byte-addressed model of the backing file of a `DataFile`
(src/project/src/lib.rs:105-182): the current length plus the byte
content (0 for never-written offsets, matching `set_len` zero-fill and
sparse-seek holes). -/
structure FileState where
  size : ℕ
  byte : ℕ → ℕ

/-- Write a byte string at an offset: overwrites in place, extends the
length when writing at or past the end (Rust `seek` + `write_all`). -/
def writeBytes (s : FileState) (off : ℕ) (bs : List ℕ) : FileState :=
  { size := max s.size (off + bs.length)
    byte := fun i =>
      if off ≤ i ∧ i < off + bs.length then bs.getD (i - off) 0 else s.byte i }

/-- Read `n` bytes at an offset. -/
def readBytes (s : FileState) (off n : ℕ) : List ℕ :=
  (List.range n).map (fun k => s.byte (off + k))

/-- Little-endian 8-byte encoding of a `u64` (the `bytemuck` cast of the
`[pos, len]` index pair). -/
def encodeU64 (n : ℕ) : List ℕ :=
  (List.range 8).map (fun k => n / 256 ^ k % 256)

/-- Little-endian 8-byte decode of a `u64` read from the file. -/
def readU64 (s : FileState) (off : ℕ) : ℕ :=
  ∑ k ∈ Finset.range 8, s.byte (off + k) % 256 * 256 ^ k

/-- Embedding of `DataFile::new` (src/project/src/lib.rs:117-126): a
fresh file of `size * 2 * size_of::<u64>() = size * 16` zero bytes (the
index region). -/
def DataFile.new (size : ℕ) : FileState := ⟨size * 16, fun _ => 0⟩

/-- Embedding of `DataFile::save` (src/project/src/lib.rs:144-154),
record type of byte width `sz`: seek to the end, remember `[pos, record
count]`, append the record bytes, then write the 16-byte index entry at
`idx * 16`. -/
def DataFile.save (_sz : ℕ) (s : FileState) (idx : ℕ)
    (data : List (List ℕ)) : FileState :=
  let pos := s.size
  let s1 := writeBytes s pos data.flatten
  writeBytes s1 (idx * 16) (encodeU64 pos ++ encodeU64 data.length)

/-- Embedding of `DataFile::read` (src/project/src/lib.rs:156-172):
fetch the `[pos, count]` index entry at `idx * 16`, then read `count`
records of `sz` bytes each starting at `pos`. -/
def DataFile.read (sz : ℕ) (s : FileState) (idx : ℕ) : List (List ℕ) :=
  let pos := readU64 s (idx * 16)
  let cnt := readU64 s (idx * 16 + 8)
  (List.range cnt).map (fun k => readBytes s (pos + k * sz) sz)

/-- Run a list of `save` operations (index, record list) in order. -/
def DataFile.runSaves (sz : ℕ) (s : FileState)
    (ops : List (ℕ × List (List ℕ))) : FileState :=
  ops.foldl (fun st e => DataFile.save sz st e.1 e.2) s

/-- Embedding of the segment-id assignment of `import`
(src/importer/src/lib.rs:197-205): after `segments.shuffle(...)`, the
order's `enumerate()` index plus one becomes the `NonZeroU32` segment
id, so segment `k` of the (shuffled) list gets id `k + 1`. -/
def assignSegmentIds (segments : List (List V3)) : List (List V3 × ℕ) :=
  segments.enum.map (fun e => (e.2, e.1 + 1))

/-- Segment id a point ends up with: the id paired with the first
listed segment containing the point. -/
def pointSegmentId (segments : List (List V3)) (p : V3) : Option ℕ :=
  ((assignSegmentIds segments).find? (fun e => p ∈ e.1)).map (fun e => e.2)

/-- Segment (point group) a point belongs to: the first listed segment
containing it.  Membership, as opposed to the numeric id, is what the
amended C2 shows to be shuffle-invariant. -/
def segmentOf (segments : List (List V3)) (p : V3) : Option (List V3) :=
  segments.find? (fun s => p ∈ s)

/-- Embedding of the importer's `Error` enum
(src/importer/src/lib.rs:24-49). -/
inductive ImportError where
  | noInputFile
  | noOutputFolder
  | invalidFile
  | corruptFile
  | lasZipError
  | outputFolderIsFile
  | outputFolderIsNotEmpty
  | notEnoughThreads
deriving DecidableEq

/-- Embedding of `run` (src/importer/src/lib.rs:114-143) as its
error-path skeleton: resolve the input file (CLI argument, else file
dialog), resolve the output folder likewise, reject `max_threads == 1`,
then hand over to `import` (abstracted as `importResult`, since `import`
performs I/O). -/
def run {Path : Type} (inputFile pickFileDialog outputFolder pickFolderDialog : Option Path)
    (maxThreads : ℕ) (importResult : Except ImportError Unit) :
    Except ImportError Unit :=
  match inputFile.or pickFileDialog with
  | none => .error .noInputFile
  | some _ =>
    match outputFolder.or pickFolderDialog with
    | none => .error .noOutputFolder
    | some _ =>
      if maxThreads = 1 then .error .notEnoughThreads
      else importResult

/-- Concrete environment used by witnesses and counterexamples: identity
square root, a trivial one-neighbor query, zero eigenvalues and the
standard basis as eigenvectors. -/
def envTrivial : MathEnv :=
  { sqrtQ := id
    knn := fun _ => [(0, 0)]
    eigenvalues := fun _ => ⟨0, 0, 0⟩
    eigenvectors := fun _ _ => ⟨⟨1, 0, 0⟩, ⟨0, 1, 0⟩, ⟨0, 0, 1⟩⟩ }

/-- Witness data: six points on the coordinate axes, whose neighborhood
covariance matrix is exactly `diag(4/3, 1/3, 1/3)`. -/
def dataAxes : List V3 :=
  [⟨2, 0, 0⟩, ⟨-2, 0, 0⟩, ⟨0, 1, 0⟩, ⟨0, -1, 0⟩, ⟨0, 0, 1⟩, ⟨0, 0, -1⟩]

/-- Witness environment for `dataAxes`: every query returns all six
points, and the eigenvalue triple `(4/3, 1/3, 1/3)` of the resulting
covariance matrix is supplied in decreasing order with the standard
basis as eigenvectors. -/
def envAxes : MathEnv :=
  { sqrtQ := id
    knn := fun _ => [(0, 0), (0, 1), (0, 2), (0, 3), (0, 4), (0, 5)]
    eigenvalues := fun _ => ⟨4 / 3, 1 / 3, 1 / 3⟩
    eigenvectors := fun _ _ => ⟨⟨1, 0, 0⟩, ⟨0, 1, 0⟩, ⟨0, 0, 1⟩⟩ }

/-- Witness data: three collinear points with exact rational pairwise
distances 1, 2 and 3. -/
def dataLine : List V3 := [⟨0, 0, 0⟩, ⟨1, 0, 0⟩, ⟨3, 0, 0⟩]

/-- Witness neighbor query for `dataLine`: the exact sorted neighbor
lists with the self-match first. -/
def knnLine : V3 → List (ℚ × ℕ) := fun p =>
  if p = ⟨0, 0, 0⟩ then [(0, 0), (1, 1), (3, 2)]
  else if p = ⟨1, 0, 0⟩ then [(0, 1), (1, 0), (2, 2)]
  else if p = ⟨3, 0, 0⟩ then [(0, 2), (2, 1), (3, 0)]
  else []

/-- Witness environment for `dataLine`. -/
def envLine : MathEnv :=
  { sqrtQ := id
    knn := knnLine
    eigenvalues := fun _ => ⟨0, 0, 0⟩
    eigenvectors := fun _ _ => ⟨⟨1, 0, 0⟩, ⟨0, 1, 0⟩, ⟨0, 0, 1⟩⟩ }

/-- Witness data: two points one length unit apart vertically (positive
segment height). -/
def dataTwo : List V3 := [⟨0, 0, 0⟩, ⟨0, 1, 0⟩]

/-- Smallest of an eigenvalue triple, used to state C5's
`λ_min`-formulation. -/
def minEigen (v : V3) : ℚ := min (min v.x v.y) v.z

/-- Unit cube used by the octree witnesses. -/
def cubeUnit : Cube := ⟨v3zero, 1⟩

/-! Helper lemmas about the `u32` cast and `map_to_u32`. -/

theorem castU32_le (v : ℚ) : castU32 v ≤ 4294967295 :=
  min_le_right _ _

theorem map_to_u32_le (v : ℚ) : map_to_u32 v ≤ 4294967295 :=
  castU32_le _

theorem map_to_u32_eq_floor {v : ℚ} (h1 : v < 1) :
    map_to_u32 v = (⌊v * 4294967296⌋).toNat := by
  unfold map_to_u32 castU32
  have hlt : v * 4294967296 < 4294967296 := by nlinarith
  have hfl : ⌊v * 4294967296⌋ < 4294967296 := by
    exact_mod_cast Int.floor_lt.mpr (by exact_mod_cast hlt)
  have : (⌊v * 4294967296⌋).toNat ≤ 4294967295 := by omega
  exact min_eq_left this

theorem map_to_u32_of_one_le {v : ℚ} (h : 1 ≤ v) : map_to_u32 v = 4294967295 := by
  unfold map_to_u32 castU32
  have hge : (4294967296 : ℚ) ≤ v * 4294967296 := by nlinarith
  have hfl : (4294967296 : ℤ) ≤ ⌊v * 4294967296⌋ := by
    exact Int.le_floor.mpr (by exact_mod_cast hge)
  have : 4294967295 ≤ (⌊v * 4294967296⌋).toNat := by omega
  exact min_eq_right this

theorem map_to_u32_zero : map_to_u32 0 = 0 := by
  rw [map_to_u32_eq_floor one_pos]
  norm_num

theorem map_to_u32_one : map_to_u32 1 = 4294967295 :=
  map_to_u32_of_one_le le_rfl

theorem map_to_u32_neg {v : ℚ} (hv : v < 0) : map_to_u32 v = 0 := by
  unfold map_to_u32 castU32
  have hlt : v * 4294967296 < 0 := by nlinarith
  have hfloor : ⌊v * 4294967296⌋ < 0 := by
    exact_mod_cast Int.floor_lt.mpr (by exact_mod_cast hlt)
  have : (⌊v * 4294967296⌋).toNat = 0 := Int.toNat_of_nonpos (le_of_lt hfloor)
  simp [this]

theorem map_to_u32_pos_of_ne_zero {v : ℚ} (h : map_to_u32 v ≠ 0) : 0 < v := by
  by_contra hv
  push_neg at hv
  rcases lt_or_eq_of_le hv with h1 | h1
  · exact h (map_to_u32_neg h1)
  · rw [h1] at h
    exact h map_to_u32_zero

/-- Claim C10 (counterexample): the claim says inputs in `[0, 1]` return
the truncation of `value * u32::MAX`; but the code multiplies by
`u32::MAX as f32`, which rounds to `2^32`, so at `value = 1/2` the code
returns `2147483648` while the claimed truncation of
`value * 4294967295` is `2147483647`. -/
theorem map_to_u32_half_counterexample :
    map_to_u32 (1 / 2) = 2147483648 ∧
    (⌊(1 / 2 : ℚ) * 4294967295⌋).toNat = 2147483647 ∧
    map_to_u32 (1 / 2) ≠ (⌊(1 / 2 : ℚ) * 4294967295⌋).toNat := by
  have h1 : map_to_u32 (1 / 2) = 2147483648 := by
    rw [map_to_u32_eq_floor (by norm_num)]
    norm_num
    decide
  have h2 : (⌊(1 / 2 : ℚ) * 4294967295⌋).toNat = 2147483647 := by
    norm_num
    decide
  exact ⟨h1, h2, by rw [h1, h2]; decide⟩

/-- Claim C10 (amended): `map_to_u32` is total and saturating over the
whole `f32` domain; negative, `NaN` and `-∞` inputs yield `0`; inputs at
or above `1` (and `+∞`) yield `u32::MAX`; inputs in `[0, 1)` yield the
truncation of `value * 2^32` (the `f32` rounding of `u32::MAX` being
`2^32`, not `4294967295`); every output lies in `[0, 2^32 - 1]`. -/
theorem map_to_u32_total_saturates (x : FloatVal) :
    map_to_u32_total x ≤ 4294967295 ∧
    (∀ q, x = .val q → q < 0 → map_to_u32_total x = 0) ∧
    (∀ q, x = .val q → 0 ≤ q → q < 1 →
      map_to_u32_total x = (⌊q * 4294967296⌋).toNat) ∧
    (∀ q, x = .val q → 1 ≤ q → map_to_u32_total x = 4294967295) ∧
    (x = .nan → map_to_u32_total x = 0) ∧
    (x = .negInf → map_to_u32_total x = 0) ∧
    (x = .posInf → map_to_u32_total x = 4294967295) := by
  refine ⟨?_, ?_, ?_, ?_, ?_, ?_, ?_⟩
  · cases x <;> simp [map_to_u32_total, map_to_u32_le]
  · rintro q rfl hq
    simpa [map_to_u32_total] using map_to_u32_neg hq
  · rintro q rfl _ hq1
    simpa [map_to_u32_total] using map_to_u32_eq_floor hq1
  · rintro q rfl hq
    simpa [map_to_u32_total] using map_to_u32_of_one_le hq
  · rintro rfl; rfl
  · rintro rfl; rfl
  · rintro rfl; rfl

/-- Witness for the amended C10 at concrete inputs `2` and `-1`. -/
theorem map_to_u32_total_saturates_witness :
    map_to_u32_total (.val 2) = 4294967295 ∧ map_to_u32_total (.val (-1)) = 0 :=
  ⟨(map_to_u32_total_saturates (.val 2)).2.2.2.1 2 rfl (by norm_num),
   (map_to_u32_total_saturates (.val (-1))).2.1 (-1) rfl (by norm_num)⟩

/-- Claim C8: `run` returns the `NotEnoughThreads` error exactly when
`max_threads == 1`, provided the input file and output folder resolve
(when they do not, `run` returns the corresponding earlier error before
reaching the thread check, src/importer/src/lib.rs:115-134) and the
downstream `import` does not itself produce `NotEnoughThreads` (no other
construction site of that variant exists in the available sources). -/
theorem run_not_enough_threads_iff {Path : Type}
    (inputFile pickFileDialog outputFolder pickFolderDialog : Option Path)
    (maxThreads : ℕ) (importResult : Except ImportError Unit)
    (hin : (inputFile.or pickFileDialog).isSome)
    (hout : (outputFolder.or pickFolderDialog).isSome)
    (himp : importResult ≠ .error .notEnoughThreads) :
    (run inputFile pickFileDialog outputFolder pickFolderDialog maxThreads
      importResult = .error .notEnoughThreads) ↔ maxThreads = 1 := by
  rcases Option.isSome_iff_exists.mp hin with ⟨a, ha⟩
  rcases Option.isSome_iff_exists.mp hout with ⟨b, hb⟩
  unfold run
  rw [ha, hb]
  by_cases h : maxThreads = 1
  · simp [h]
  · simp [h, himp]

/-- Witness for C8: with the input and output provided, `max_threads = 1`
is rejected with `NotEnoughThreads`, while `max_threads = 0` and
`max_threads = 2` are not. -/
theorem run_not_enough_threads_iff_witness :
    (run (some ()) none (some ()) none 1 (.ok ()) = .error .notEnoughThreads) ∧
    ¬(run (some ()) none (some ()) none 0 (.ok ()) = .error .notEnoughThreads) ∧
    ¬(run (some ()) none (some ()) none 2 (.ok ()) = .error .notEnoughThreads) :=
  ⟨(run_not_enough_threads_iff (some ()) none (some ()) none 1 (.ok ())
      rfl rfl (fun h => nomatch h)).mpr rfl,
   fun h => by
    have h0 := (run_not_enough_threads_iff (some ()) none (some ()) none 0 (.ok ())
      rfl rfl (fun hh => nomatch hh)).mp h
    exact absurd h0 (by decide),
   fun h => by
    have h2 := (run_not_enough_threads_iff (some ()) none (some ()) none 2 (.ok ())
      rfl rfl (fun hh => nomatch hh)).mp h
    exact absurd h2 (by decide)⟩

/-- The `i`-th output point of `calculate` is `calculatePoint i`. -/
theorem calculate_getD (env : MathEnv) (data : List V3) (segment i : ℕ)
    (hi : i < data.length) :
    (calculate env data segment).1.getD i default
      = calculatePoint env data segment i := by
  unfold calculate
  simp [List.getD_eq_getElem?_getD, List.getElem?_map, List.getElem?_range, hi]

/-- Claim C5 (amended): the `curve` attribute of every output point is
`3 * λ_min / (λ0 + λ1 + λ2)` of the neighborhood covariance eigenvalues,
pushed through `map_to_u32` as implemented — multiplying by `2^32` (the
`f32` value of `u32::MAX`) with truncation and saturation, not by
`4294967295` as the original claim words it (see the counterexample
below and C10) — per src/importer/src/calculations.rs:121.  The
eigenvalue triple is produced by the modelled `fast_eigenvalues`
(`math` crate, not under `src/`), assumed sorted in decreasing order at
the covariance matrix of the queried point, so its `.z` entry is the
smallest. -/
theorem calculate_curve_eigen_ratio (env : MathEnv) (data : List V3)
    (segment i : ℕ) (hi : i < data.length)
    (hyx : (env.eigenvalues (covMat env data (data.getD i v3zero))).y
      ≤ (env.eigenvalues (covMat env data (data.getD i v3zero))).x)
    (hzy : (env.eigenvalues (covMat env data (data.getD i v3zero))).z
      ≤ (env.eigenvalues (covMat env data (data.getD i v3zero))).y) :
    ((calculate env data segment).1.getD i default).curve
      = map_to_u32 ((3 * minEigen (env.eigenvalues (covMat env data (data.getD i v3zero))))
        / ((env.eigenvalues (covMat env data (data.getD i v3zero))).x
          + (env.eigenvalues (covMat env data (data.getD i v3zero))).y
          + (env.eigenvalues (covMat env data (data.getD i v3zero))).z)) := by
  rw [calculate_getD env data segment i hi]
  unfold calculatePoint minEigen
  rw [min_eq_right hyx, min_eq_right hzy]

/-- Witness for C5 on the six axis points: the eigenvalues are
`(4/3, 1/3, 1/3)`, so the curvature ratio is `1/2` and the mapped curve
value is `2147483648`. -/
theorem calculate_curve_eigen_ratio_witness :
    ((calculate envAxes dataAxes 1).1.getD 0 default).curve = 2147483648 := by
  have h := calculate_curve_eigen_ratio envAxes dataAxes 1 0
    (by simp [dataAxes]) (by simp [envAxes]; norm_num) (by simp [envAxes])
  rw [h]
  have hv : (3 * minEigen (envAxes.eigenvalues
        (covMat envAxes dataAxes (dataAxes.getD 0 v3zero))))
      / ((envAxes.eigenvalues (covMat envAxes dataAxes (dataAxes.getD 0 v3zero))).x
        + (envAxes.eigenvalues (covMat envAxes dataAxes (dataAxes.getD 0 v3zero))).y
        + (envAxes.eigenvalues (covMat envAxes dataAxes (dataAxes.getD 0 v3zero))).z)
      = 1 / 2 := by
    simp [envAxes, minEigen]
    norm_num
  rw [hv, map_to_u32_eq_floor (by norm_num)]
  norm_num
  decide

/-- Claim C6: every output point's normal is the `.z` eigenvector row
returned by the modelled `calculate_eigenvectors` (the eigenvector of
the smallest eigenvalue, `math` crate, not under `src/`,
src/importer/src/calculations.rs:115), and under the library's contract
that this vector is unit length, its norm lies within `1 ± 1e-4`
(stated on the squared norm: `(1-1e-4)^2 ≤ ‖n‖² ≤ (1+1e-4)^2`, which
for a non-negative norm is the claim's bound). -/
theorem calculate_normal_unit_length (env : MathEnv) (data : List V3)
    (segment i : ℕ) (hi : i < data.length)
    (hunit : normSq ((env.eigenvectors (covMat env data (data.getD i v3zero))
      (env.eigenvalues (covMat env data (data.getD i v3zero)))).z) = 1) :
    ((calculate env data segment).1.getD i default).normal
      = (env.eigenvectors (covMat env data (data.getD i v3zero))
        (env.eigenvalues (covMat env data (data.getD i v3zero)))).z ∧
    ((9999 : ℚ) / 10000) ^ 2
      ≤ normSq (((calculate env data segment).1.getD i default).normal) ∧
    normSq (((calculate env data segment).1.getD i default).normal)
      ≤ ((10001 : ℚ) / 10000) ^ 2 := by
  rw [calculate_getD env data segment i hi]
  unfold calculatePoint
  refine ⟨rfl, ?_, ?_⟩ <;> rw [hunit] <;> norm_num

/-- Witness for C6: the trivial eigenvector triple is the standard
basis, whose `.z` row has squared norm exactly `1`. -/
theorem calculate_normal_unit_length_witness :
    ((9999 : ℚ) / 10000) ^ 2
      ≤ normSq (((calculate envAxes dataAxes 1).1.getD 0 default).normal) :=
  (calculate_normal_unit_length envAxes dataAxes 1 0 (by simp [dataAxes])
    (by simp [envAxes, normSq])).2.1

/-- Claim C3: every output point's `size` is one third of the mean of
the distances returned for its neighbor query, the first entry (the
self-match, distance `0`) excluded — `size = (1/3) * (Σ tail distances)
/ (count - 1)` (src/importer/src/calculations.rs:105-110) — and under
the (spec-modelled) `k_nearest` contract each of those tail distances is
the non-negative Euclidean distance from the point to the indexed
neighbor (stated via its square, the distances being exact square
roots). -/
theorem calculate_size_mean_distance (env : MathEnv) (data : List V3)
    (segment i : ℕ) (hspec : KnnSpec data env.knn) (hi : i < data.length) :
    ((calculate env data segment).1.getD i default).size
      = (1 / 3) * ((env.knn (data.getD i v3zero)).tail.map Prod.fst).sum
        / (((env.knn (data.getD i v3zero)).length - 1 : ℕ) : ℚ) ∧
    (∀ e ∈ (env.knn (data.getD i v3zero)).tail,
      0 ≤ e.1 ∧ e.1 ^ 2 = sqDist (data.getD i v3zero) (data.getD e.2 v3zero)) ∧
    (∃ j, (env.knn (data.getD i v3zero)).head? = some (0, j) ∧
      data.getD j v3zero = data.getD i v3zero) := by
  have hp : data.getD i v3zero ∈ data := by
    rw [List.getD_eq_getElem data v3zero hi]
    exact List.getElem_mem hi
  refine ⟨?_, ?_, ?_⟩
  · rw [calculate_getD env data segment i hi]
    rfl
  · intro e he
    have hmem : e ∈ env.knn (data.getD i v3zero) := List.mem_of_mem_tail he
    exact ⟨hspec.dist_nonneg _ hp e hmem, hspec.dist_sq _ hp e hmem⟩
  · obtain ⟨j, hj, _, hjp⟩ := hspec.head_self _ hp
    exact ⟨j, hj, hjp⟩

/-- The concrete neighbor query `knnLine` satisfies the k-d tree
contract on `dataLine`. -/
theorem knnLine_spec : KnnSpec dataLine knnLine := by
  refine ⟨?_, ?_, ?_, ?_, ?_, ?_, ?_⟩
  · intro p hp
    fin_cases hp <;> norm_num [knnLine, dataLine, MAX_NEIGHBORS, V3.mk.injEq]
  · intro p hp
    fin_cases hp
    · exact ⟨0, by norm_num [knnLine, dataLine, V3.mk.injEq], by
        norm_num [dataLine], rfl⟩
    · exact ⟨1, by norm_num [knnLine, dataLine, V3.mk.injEq], by
        norm_num [dataLine], rfl⟩
    · exact ⟨2, by norm_num [knnLine, dataLine, V3.mk.injEq], by
        norm_num [dataLine], rfl⟩
  · intro p hp
    fin_cases hp <;> norm_num [knnLine, dataLine, V3.mk.injEq]
  · intro p hp
    fin_cases hp <;> norm_num [knnLine, dataLine, V3.mk.injEq]
  · intro p hp
    have h0 : dataLine[0]?.getD v3zero = ⟨0, 0, 0⟩ := rfl
    have h1 : dataLine[1]?.getD v3zero = ⟨1, 0, 0⟩ := rfl
    have h2 : dataLine[2]?.getD v3zero = ⟨3, 0, 0⟩ := rfl
    fin_cases hp <;> norm_num [knnLine, sqDist, V3.mk.injEq, h0, h1, h2]
  · intro p hp
    fin_cases hp <;> norm_num [knnLine, dataLine, V3.mk.injEq, List.Pairwise]
  · intro p hp
    fin_cases hp <;> norm_num [knnLine, dataLine, V3.mk.injEq]

/-- Witness for C3 on the collinear fixture: point 0 has neighbor
distances 1 and 3, so its size is `(1/3) * (1 + 3) / 2 = 2/3`. -/
theorem calculate_size_mean_distance_witness :
    ((calculate envLine dataLine 1).1.getD 0 default).size = 2 / 3 := by
  have h := (calculate_size_mean_distance envLine dataLine 1 0 knnLine_spec
    (by simp [dataLine])).1
  rw [h]
  have h0 : dataLine.getD 0 v3zero = ⟨0, 0, 0⟩ := rfl
  rw [h0]
  norm_num [envLine, knnLine, dataLine, V3.mk.injEq]

/-! Helper lemmas about the min/max folds of `calculate`. -/

theorem foldl_min_le_init (l : List V3) (a : ℚ) :
    l.foldl (fun m q => min m q.y) a ≤ a := by
  induction l generalizing a with
  | nil => exact le_rfl
  | cons b l ih => exact le_trans (ih (min a b.y)) (min_le_left _ _)

theorem foldl_min_le_mem (l : List V3) (a : ℚ) {q : V3} (hq : q ∈ l) :
    l.foldl (fun m p => min m p.y) a ≤ q.y := by
  induction l generalizing a with
  | nil => cases hq
  | cons b l ih =>
    rcases List.mem_cons.mp hq with rfl | hq'
    · exact le_trans (foldl_min_le_init l (min a q.y)) (min_le_right _ _)
    · exact ih (min a b.y) hq'

theorem le_foldl_max_init (l : List V3) (a : ℚ) :
    a ≤ l.foldl (fun m q => max m q.y) a := by
  induction l generalizing a with
  | nil => exact le_rfl
  | cons b l ih => exact le_trans (le_max_left _ _) (ih (max a b.y))

theorem le_foldl_max_mem (l : List V3) (a : ℚ) {q : V3} (hq : q ∈ l) :
    q.y ≤ l.foldl (fun m p => max m p.y) a := by
  induction l generalizing a with
  | nil => cases hq
  | cons b l ih =>
    rcases List.mem_cons.mp hq with rfl | hq'
    · exact le_trans (le_max_right _ _) (le_foldl_max_init l (max a q.y))
    · exact ih (max a b.y) hq'

theorem minY_le {data : List V3} {p : V3} (hp : p ∈ data) : minY data ≤ p.y := by
  cases data with
  | nil => cases hp
  | cons b l =>
    rcases List.mem_cons.mp hp with rfl | hp'
    · exact foldl_min_le_init l p.y
    · exact foldl_min_le_mem l b.y hp'

theorem le_maxY {data : List V3} {p : V3} (hp : p ∈ data) : p.y ≤ maxY data := by
  cases data with
  | nil => cases hp
  | cons b l =>
    rcases List.mem_cons.mp hp with rfl | hp'
    · exact le_foldl_max_init l p.y
    · exact le_foldl_max_mem l b.y hp'

theorem minY_le_maxY {data : List V3} (hne : data ≠ []) :
    minY data ≤ maxY data := by
  cases data with
  | nil => exact absurd rfl hne
  | cons b l => exact le_trans (foldl_min_le_init l b.y) (le_foldl_max_init l b.y)

theorem foldl_max_choice (l : List ℚ) (a : ℚ) :
    l.foldl max a = a ∨ l.foldl max a ∈ l := by
  induction l generalizing a with
  | nil => exact Or.inl rfl
  | cons b l ih =>
    rcases ih (max a b) with h | h
    · rcases max_choice a b with hm | hm
      · exact Or.inl (by rw [List.foldl_cons, h, hm])
      · exact Or.inr (by rw [List.foldl_cons, h, hm]; exact List.mem_cons_self _ _)
    · exact Or.inr (List.mem_cons_of_mem _ h)

theorem le_foldr_max_nat {l : List ℕ} {v : ℕ} (hv : v ∈ l) :
    v ≤ l.foldr max 0 := by
  induction l with
  | nil => cases hv
  | cons b l ih =>
    rcases List.mem_cons.mp hv with rfl | hv'
    · exact le_max_left _ _
    · exact le_trans (ih hv') (le_max_right _ _)

theorem foldr_max_nat_le {l : List ℕ} {b : ℕ} (h : ∀ v ∈ l, v ≤ b) :
    l.foldr max 0 ≤ b := by
  induction l with
  | nil => exact Nat.zero_le b
  | cons c l ih =>
    exact max_le (h c (List.mem_cons_self _ _))
      (ih (fun v hv => h v (List.mem_cons_of_mem _ hv)))

/-- When the maximal dispersion is zero every mapped slice value is
zero (the Rust side produces `NaN / 0.0 = NaN` there, which
`map_to_u32` also casts to `0`). -/
theorem sliceMapped_eq_zero_of_max_zero {env : MathEnv} {data : List V3}
    (h : maxDispersion env data = 0) (i : ℕ) : sliceMapped env data i = 0 := by
  unfold sliceMapped
  rw [h, div_zero, map_to_u32_zero]

/-- A nonzero maximal dispersion is attained by some slice below
`numSlices`. -/
theorem maxDispersion_attained {env : MathEnv} {data : List V3}
    (h : maxDispersion env data ≠ 0) :
    ∃ i < numSlices data,
      sliceDispersion env data (minY data) i = maxDispersion env data := by
  unfold maxDispersion at h ⊢
  rcases foldl_max_choice
    ((List.range (numSlices data)).map
      (fun i => sliceDispersion env data (minY data) i)) 0 with hc | hc
  · exact absurd hc h
  · obtain ⟨i, hi, heq⟩ := List.mem_map.mp hc
    exact ⟨i, List.mem_range.mp hi, heq⟩

/-- With a nonzero maximal dispersion, the attaining slice maps to the
full 32-bit value `u32::MAX`. -/
theorem sliceMapped_attains_max {env : MathEnv} {data : List V3}
    (h : maxDispersion env data ≠ 0) :
    ∃ i < numSlices data, sliceMapped env data i = 4294967295 := by
  obtain ⟨i, hi, heq⟩ := maxDispersion_attained h
  refine ⟨i, hi, ?_⟩
  unfold sliceMapped
  rw [heq, div_self h, map_to_u32_one]

/-- The source-side separation index (`find` against the constant
`u32::MAX / 3`) agrees with the claim-side one (`find` against one third
of the maximal mapped dispersion). -/
theorem sepIdx_eq_sepIdxSpec (env : MathEnv) (data : List V3) :
    sepIdx env data = sepIdxSpec env data := by
  by_cases h : maxDispersion env data = 0
  · have hall : ∀ v ∈ sliceMappedList env data, v = 0 := by
      intro v hv
      obtain ⟨i, _, hveq⟩ := List.mem_map.mp hv
      rw [← hveq]
      exact sliceMapped_eq_zero_of_max_zero h i
    have h1 : (sliceMappedList env data).findIdx?
        (fun v => 1431655765 < v) = none := by
      rw [List.findIdx?_eq_none_iff]
      intro v hv
      rw [hall v hv]
      decide
    have h2 : (sliceMappedList env data).findIdx?
        (fun v => (sliceMappedList env data).foldr max 0 / 3 < v) = none := by
      rw [List.findIdx?_eq_none_iff]
      intro v hv
      rw [hall v hv]
      simp
    unfold sepIdx sepIdxSpec
    rw [h1, h2]
  · obtain ⟨i, hi, hmax⟩ := sliceMapped_attains_max h
    have hmem : (4294967295 : ℕ) ∈ sliceMappedList env data := by
      rw [← hmax]
      exact List.mem_map_of_mem _ (List.mem_range.mpr hi)
    have hfold : (sliceMappedList env data).foldr max 0 = 4294967295 := by
      refine le_antisymm (foldr_max_nat_le ?_) (le_foldr_max_nat hmem)
      intro v hv
      obtain ⟨j, _, hveq⟩ := List.mem_map.mp hv
      rw [← hveq]
      exact map_to_u32_le _
    unfold sepIdx sepIdxSpec
    rw [hfold]

/-- Claim C4: the trunk/crown separation height is `min + slice_width *
i`, where `i` is the lowest slice whose mapped normalized dispersion
exceeds one third of the maximal mapped dispersion, defaulting to slice
`0` (src/importer/src/calculations.rs:62-69).  The source compares
against the constant `u32::MAX / 3 = 1431655765`; this coincides with
one third of the maximal mapped dispersion because the maximal slice
maps to exactly `u32::MAX` whenever any dispersion is nonzero, and both
`find`s fail together otherwise. -/
theorem calculate_sep_lowest_slice (env : MathEnv) (data : List V3)
    (segment : ℕ) :
    (calculate env data segment).2.trunkHeight.absolute
      = sliceWidth * (sepIdxSpec env data : ℚ) ∧
    trunkCrownSep env data = minY data + sliceWidth * (sepIdxSpec env data : ℚ) ∧
    sepIdx env data = sepIdxSpec env data := by
  refine ⟨?_, ?_, sepIdx_eq_sepIdxSpec env data⟩
  · show trunkCrownSep env data - minY data = _
    unfold trunkCrownSep
    rw [sepIdx_eq_sepIdxSpec]
    ring
  · unfold trunkCrownSep
    rw [sepIdx_eq_sepIdxSpec]

/-- A slice with a nonzero mapped dispersion is inhabited: some data
point falls into it (an empty slice has squared-deviation sum `0`, hence
mapped value `0`; on the Rust side it is `NaN`, which also maps to
`0`). -/
theorem exists_member_of_sliceMapped_ne_zero {env : MathEnv} {data : List V3}
    {i : ℕ} (h : sliceMapped env data i ≠ 0) :
    ∃ p ∈ data, sliceIdxOf (minY data) p = i := by
  by_contra hc
  push_neg at hc
  have hnil : sliceMembers data (minY data) i = [] := by
    unfold sliceMembers
    rw [List.filter_eq_nil_iff]
    intro p hp
    simpa using hc p hp
  apply h
  unfold sliceMapped sliceDispersion sliceSqSum
  rw [hnil]
  simp [map_to_u32_zero]

/-- The separation height never exceeds the top of the segment: a found
separation slice is inhabited, and its floor-index times the slice
width stays below the height of its witness point. -/
theorem trunkCrownSep_le_maxY {env : MathEnv} {data : List V3}
    (hne : data ≠ []) : trunkCrownSep env data ≤ maxY data := by
  unfold trunkCrownSep sepIdx
  cases hfind : (sliceMappedList env data).findIdx? (fun v => 1431655765 < v) with
  | none =>
    simpa using minY_le_maxY hne
  | some k =>
    obtain ⟨hk, hpk, _⟩ := List.findIdx?_eq_some_iff_getElem.mp hfind
    have helem : (sliceMappedList env data)[k] = sliceMapped env data k := by
      simp [sliceMappedList]
    rw [helem] at hpk
    have hlt : 1431655765 < sliceMapped env data k := of_decide_eq_true hpk
    have hne0 : sliceMapped env data k ≠ 0 := by omega
    obtain ⟨p, hpmem, hpidx⟩ := exists_member_of_sliceMapped_ne_zero hne0
    have hw : (0 : ℚ) < sliceWidth := by norm_num [sliceWidth]
    have hynn : 0 ≤ (p.y - minY data) / sliceWidth :=
      div_nonneg (sub_nonneg.mpr (minY_le hpmem)) (le_of_lt hw)
    have hfl0 : 0 ≤ ⌊(p.y - minY data) / sliceWidth⌋ := Int.floor_nonneg.mpr hynn
    have hkq : (k : ℚ) ≤ (p.y - minY data) / sliceWidth := by
      rw [← hpidx]
      unfold sliceIdxOf
      calc ((⌊(p.y - minY data) / sliceWidth⌋.toNat : ℕ) : ℚ)
          = ((⌊(p.y - minY data) / sliceWidth⌋ : ℤ) : ℚ) := by
            exact_mod_cast congrArg (fun n : ℤ => (n : ℚ))
              (Int.toNat_of_nonneg hfl0)
        _ ≤ (p.y - minY data) / sliceWidth := Int.floor_le _
    have hwk : sliceWidth * (k : ℚ) ≤ p.y - minY data := by
      rw [mul_comm]
      exact (le_div_iff₀ hw).mp hkq
    have hpy : p.y ≤ maxY data := le_maxY hpmem
    simp only [Option.getD_some]
    linarith

/-- The separation height never drops below the bottom of the
segment. -/
theorem minY_le_trunkCrownSep (env : MathEnv) (data : List V3) :
    minY data ≤ trunkCrownSep env data := by
  unfold trunkCrownSep
  have h : (0 : ℚ) ≤ sliceWidth * (sepIdx env data : ℚ) :=
    mul_nonneg (by norm_num [sliceWidth]) (Nat.cast_nonneg _)
  linarith

/-- Claim C1 (counterexample): the claim quantifies over every non-empty
segment point list, but on a single-point segment the height is `0` and
both percent fields are `0/0` (`NaN` on the Rust side, `0` in the exact
model; under neither reading do the percentages sum to `1`). -/
theorem calculate_percent_sum_counterexample :
    ([(⟨0, 0, 0⟩ : V3)] ≠ ([] : List V3)) ∧
    (calculate envTrivial [⟨0, 0, 0⟩] 1).2.trunkHeight.percent
      + (calculate envTrivial [⟨0, 0, 0⟩] 1).2.crownHeight.percent ≠ 1 := by
  refine ⟨by simp, ?_⟩
  have hmm : maxY [(⟨0, 0, 0⟩ : V3)] - minY [(⟨0, 0, 0⟩ : V3)] = 0 := by
    norm_num [maxY, minY]
  show (trunkCrownSep envTrivial [⟨0, 0, 0⟩] - minY [⟨0, 0, 0⟩])
        / (maxY [⟨0, 0, 0⟩] - minY [⟨0, 0, 0⟩])
      + (maxY [⟨0, 0, 0⟩] - trunkCrownSep envTrivial [⟨0, 0, 0⟩])
        / (maxY [⟨0, 0, 0⟩] - minY [⟨0, 0, 0⟩]) ≠ 1
  rw [hmm, div_zero, div_zero]
  norm_num

/-- Claim C1 (amended): for every segment whose height is positive, the
trunk and crown absolute heights sum exactly to the segment height, and
both percent fields lie in `[0, 1]` and sum to `1`
(src/importer/src/calculations.rs:126-140).  The amendment excludes the
degenerate zero-height segment exhibited by the counterexample. -/
theorem calculate_height_split (env : MathEnv) (data : List V3)
    (segment : ℕ) (hne : data ≠ []) (hpos : minY data < maxY data) :
    (calculate env data segment).2.trunkHeight.absolute
      + (calculate env data segment).2.crownHeight.absolute
      = maxY data - minY data ∧
    0 ≤ (calculate env data segment).2.trunkHeight.percent ∧
    (calculate env data segment).2.trunkHeight.percent ≤ 1 ∧
    0 ≤ (calculate env data segment).2.crownHeight.percent ∧
    (calculate env data segment).2.crownHeight.percent ≤ 1 ∧
    (calculate env data segment).2.trunkHeight.percent
      + (calculate env data segment).2.crownHeight.percent = 1 := by
  have h1 := minY_le_trunkCrownSep env data
  have h2 := @trunkCrownSep_le_maxY env data hne
  have hh : (0 : ℚ) < maxY data - minY data := sub_pos.mpr hpos
  refine ⟨?_, ?_, ?_, ?_, ?_, ?_⟩
  · show trunkCrownSep env data - minY data
        + (maxY data - trunkCrownSep env data) = _
    ring
  · show (0 : ℚ) ≤ (trunkCrownSep env data - minY data)
        / (maxY data - minY data)
    exact div_nonneg (by linarith) (le_of_lt hh)
  · show (trunkCrownSep env data - minY data)
        / (maxY data - minY data) ≤ 1
    rw [div_le_one hh]
    linarith
  · show (0 : ℚ) ≤ (maxY data - trunkCrownSep env data)
        / (maxY data - minY data)
    exact div_nonneg (by linarith) (le_of_lt hh)
  · show (maxY data - trunkCrownSep env data)
        / (maxY data - minY data) ≤ 1
    rw [div_le_one hh]
    linarith
  · show (trunkCrownSep env data - minY data) / (maxY data - minY data)
      + (maxY data - trunkCrownSep env data) / (maxY data - minY data) = 1
    rw [div_add_div_same,
      show trunkCrownSep env data - minY data
        + (maxY data - trunkCrownSep env data) = maxY data - minY data by ring,
      div_self (ne_of_gt hh)]

/-- Witness for the amended C1 on a two-point segment of height `1`. -/
theorem calculate_height_split_witness :
    (calculate envTrivial dataTwo 1).2.trunkHeight.absolute
      + (calculate envTrivial dataTwo 1).2.crownHeight.absolute
      = maxY dataTwo - minY dataTwo :=
  (calculate_height_split envTrivial dataTwo 1 (by simp [dataTwo])
    (by norm_num [minY, maxY, dataTwo])).1

/-- A predicate with a unique satisfying element is found regardless of
where that element sits in the list. -/
theorem find?_eq_some_of_unique {α : Type} {l : List α} {pred : α → Bool}
    {s : α} (hmem : s ∈ l) (hs : pred s = true)
    (huniq : ∀ a ∈ l, pred a = true → a = s) : l.find? pred = some s := by
  induction l with
  | nil => cases hmem
  | cons b l ih =>
    by_cases hb : pred b = true
    · rw [List.find?_cons_of_pos _ hb, huniq b (List.mem_cons_self _ _) hb]
    · rw [List.find?_cons_of_neg _ (by simpa using hb)]
      rcases List.mem_cons.mp hmem with rfl | hmem'
      · exact absurd hs hb
      · exact ih hmem' (fun a ha hpa => huniq a (List.mem_cons_of_mem _ ha) hpa)

/-- Claim C2 (counterexample): `import` shuffles the segment list with
`rand::thread_rng` before `enumerate()` assigns the `NonZeroU32` segment
ids (src/importer/src/lib.rs:189,203), so two runs that produce the two
different orders of the same two segments give the same point different
segment identifiers (`1` in one run, `2` in the other). -/
theorem segment_id_shuffle_counterexample :
    ([[(⟨0, 0, 0⟩ : V3)], [⟨1, 0, 0⟩]] : List (List V3)).Perm
      [[⟨1, 0, 0⟩], [⟨0, 0, 0⟩]] ∧
    pointSegmentId [[⟨0, 0, 0⟩], [⟨1, 0, 0⟩]] ⟨0, 0, 0⟩ = some 1 ∧
    pointSegmentId [[⟨1, 0, 0⟩], [⟨0, 0, 0⟩]] ⟨0, 0, 0⟩ = some 2 ∧
    pointSegmentId [[⟨0, 0, 0⟩], [⟨1, 0, 0⟩]] ⟨0, 0, 0⟩
      ≠ pointSegmentId [[⟨1, 0, 0⟩], [⟨0, 0, 0⟩]] ⟨0, 0, 0⟩ := by
  refine ⟨List.Perm.swap _ _ _, ?_, ?_, ?_⟩ <;> decide

/-- Claim C2 (amended): segment membership (which point group a point
belongs to) is stable under any reordering of the segment list — in
particular under the random shuffle — as long as the point lies in a
unique segment; only the numeric identifiers depend on the order. -/
theorem segment_membership_perm_stable (segs1 segs2 : List (List V3))
    (p : V3) (s : List V3) (hperm : segs1.Perm segs2)
    (hmem : s ∈ segs1) (hp : p ∈ s)
    (huniq : ∀ t ∈ segs1, p ∈ t → t = s) :
    segmentOf segs1 p = some s ∧ segmentOf segs2 p = some s := by
  constructor
  · exact find?_eq_some_of_unique hmem (by simpa using hp)
      (fun t ht hpt => huniq t ht (by simpa using hpt))
  · exact find?_eq_some_of_unique (hperm.mem_iff.mp hmem) (by simpa using hp)
      (fun t ht hpt => huniq t (hperm.mem_iff.mpr ht) (by simpa using hpt))

/-- Witness for the amended C2: under both orders of the two-segment
list, the point `(0,0,0)` belongs to the same segment `[(0,0,0)]`. -/
theorem segment_membership_perm_stable_witness :
    segmentOf [[(⟨0, 0, 0⟩ : V3)], [⟨1, 0, 0⟩]] ⟨0, 0, 0⟩ = some [⟨0, 0, 0⟩] ∧
    segmentOf [[(⟨1, 0, 0⟩ : V3)], [⟨0, 0, 0⟩]] ⟨0, 0, 0⟩ = some [⟨0, 0, 0⟩] :=
  segment_membership_perm_stable _ _ _ _ (List.Perm.swap _ _ _)
    (by decide) (by decide) (by decide)

/-! Helper lemmas for the octree model. -/

theorem flatMap_congr_mem {α β : Type} {L : List α} {g g' : α → List β}
    (h : ∀ v ∈ L, g v = g' v) : L.flatMap g = L.flatMap g' := by
  induction L with
  | nil => rfl
  | cons b L ih =>
    rw [List.flatMap_cons, List.flatMap_cons, h b (List.mem_cons_self _ _),
      ih (fun v hv => h v (List.mem_cons_of_mem _ hv))]

theorem flatMap_update_perm {α β : Type} {L : List α} (hL : L.Nodup)
    {o : α} (ho : o ∈ L) {g g' : α → List β} {x : β}
    (hg : (g' o).Perm (x :: g o)) (he : ∀ v, v ≠ o → g' v = g v) :
    (L.flatMap g').Perm (x :: L.flatMap g) := by
  induction L with
  | nil => cases ho
  | cons b L ih =>
    rw [List.flatMap_cons, List.flatMap_cons]
    rcases List.mem_cons.mp ho with rfl | ho'
    · have hnotin : o ∉ L := (List.nodup_cons.mp hL).1
      have hrest : L.flatMap g' = L.flatMap g :=
        flatMap_congr_mem (fun v hv => he v (fun hvb => hnotin (hvb ▸ hv)))
      rw [hrest]
      exact hg.append_right (L.flatMap g)
    · have hbo : b ≠ o := fun hv => (List.nodup_cons.mp hL).1 (hv ▸ ho')
      rw [he b hbo]
      exact ((ih (List.nodup_cons.mp hL).2 ho').append_left (g b)).trans
        List.perm_middle

theorem flatMap_perm_of_forall {α β : Type} {L : List α} {g g' : α → List β}
    (h : ∀ v ∈ L, (g v).Perm (g' v)) : (L.flatMap g).Perm (L.flatMap g') := by
  induction L with
  | nil => exact List.Perm.refl _
  | cons b L ih =>
    rw [List.flatMap_cons, List.flatMap_cons]
    exact (h b (List.mem_cons_self _ _)).append
      (ih (fun v hv => h v (List.mem_cons_of_mem _ hv)))

/-- Splitting a list into its octant buckets is a permutation. -/
theorem flatMap_filter_fin_perm {β : Type} (f : β → Fin 8) (l : List β) :
    ((List.finRange 8).flatMap
      (fun v => l.filter (fun a => f a == v))).Perm l := by
  induction l with
  | nil =>
    have h : ∀ v ∈ List.finRange 8,
        ([] : List β).filter (fun a => f a == v) = [] := fun _ _ => rfl
    simp
  | cons a l ih =>
    have hstep : ((List.finRange 8).flatMap
        (fun v => (a :: l).filter (fun b => f b == v))).Perm
        (a :: (List.finRange 8).flatMap (fun v => l.filter (fun b => f b == v))) := by
      refine flatMap_update_perm (List.nodup_finRange 8)
        (List.mem_finRange (f a)) ?_ ?_
      · rw [List.filter_cons_of_pos (by simp)]
      · intro v hv
        rw [List.filter_cons_of_neg (by simpa using fun hfa => hv hfa.symm)]
    exact hstep.trans (ih.cons a)

/-- Every tree built by `buildTree` has bounded leaves. -/
theorem buildTree_bounded {fuel : ℕ} :
    ∀ {c : Cube} {ps : List V3} {t : OTree},
      buildTree fuel c ps = some t → leavesBounded t := by
  induction fuel with
  | zero =>
    intro c ps t h
    rw [buildTree] at h
    split at h
    · cases h
      exact ‹ps.length ≤ MAX_LEAF_SIZE›
    · cases h
  | succ fuel ih =>
    intro c ps t h
    rw [buildTree] at h
    split at h
    · cases h
      exact ‹ps.length ≤ MAX_LEAF_SIZE›
    · split at h
      · cases h
        intro o
        exact ih (Option.some_get _).symm
      · cases h

/-- The points of a tree built by `buildTree` are a permutation of the
input points. -/
theorem buildTree_perm {fuel : ℕ} :
    ∀ {c : Cube} {ps : List V3} {t : OTree},
      buildTree fuel c ps = some t → (treePoints t).Perm ps := by
  induction fuel with
  | zero =>
    intro c ps t h
    rw [buildTree] at h
    split at h
    · cases h
      exact List.Perm.refl _
    · cases h
  | succ fuel ih =>
    intro c ps t h
    rw [buildTree] at h
    split at h
    · cases h
      exact List.Perm.refl _
    · split at h
      · cases h
        rename_i hall
        refine List.Perm.trans ?_ (flatMap_filter_fin_perm (octant c) ps)
        refine flatMap_perm_of_forall ?_
        intro o _
        exact ih (Option.some_get (hall o)).symm
      · cases h

/-- Insertion preserves the leaf-capacity bound. -/
theorem insertTree_bounded {fuel : ℕ} :
    ∀ {t : OTree} {c : Cube} {p : V3} {t' : OTree},
      insertTree fuel c t p = some t' → leavesBounded t → leavesBounded t' := by
  intro t
  induction t with
  | leaf ps =>
    intro c p t' h hb
    rw [insertTree] at h
    split at h
    · cases h
      rename_i hlen
      exact Nat.succ_le_of_lt hlen
    · exact buildTree_bounded h
  | branch ch ih =>
    intro c p t' h hb
    rw [insertTree] at h
    rcases Option.map_eq_some'.mp h with ⟨t'', h1, h2⟩
    subst h2
    intro o'
    by_cases ho : o' = octant c p
    · subst ho
      rw [Function.update_same]
      exact ih _ h1 (hb _)
    · rw [Function.update_noteq ho]
      exact hb o'

/-- Insertion adds exactly the inserted point to the tree's point
multiset. -/
theorem insertTree_perm {fuel : ℕ} :
    ∀ {t : OTree} {c : Cube} {p : V3} {t' : OTree},
      insertTree fuel c t p = some t' →
      (treePoints t').Perm (p :: treePoints t) := by
  intro t
  induction t with
  | leaf ps =>
    intro c p t' h
    rw [insertTree] at h
    split at h
    · cases h
      exact List.Perm.refl _
    · exact buildTree_perm h
  | branch ch ih =>
    intro c p t' h
    rw [insertTree] at h
    rcases Option.map_eq_some'.mp h with ⟨t'', h1, h2⟩
    subst h2
    show ((List.finRange 8).flatMap
      (fun o => treePoints (Function.update ch (octant c p) t'' o))).Perm
      (p :: (List.finRange 8).flatMap (fun o => treePoints (ch o)))
    refine flatMap_update_perm (List.nodup_finRange 8)
      (List.mem_finRange (octant c p)) ?_ ?_
    · rw [Function.update_same]
      exact ih _ h1
    · intro v hv
      rw [Function.update_noteq hv]

/-- Folding a point stream through `insertTree` preserves the bound and
accumulates exactly the inserted points. -/
theorem foldlM_insertTree {fuel : ℕ} {c : Cube} :
    ∀ (ps : List V3) (t0 t : OTree),
      ps.foldlM (fun t p => insertTree fuel c t p) t0 = some t →
      leavesBounded t0 →
      leavesBounded t ∧ (treePoints t).Perm (ps.reverse ++ treePoints t0) := by
  intro ps
  induction ps with
  | nil =>
    intro t0 t h hb
    cases h
    exact ⟨hb, List.Perm.refl _⟩
  | cons p ps ih =>
    intro t0 t h hb
    rw [List.foldlM_cons] at h
    rcases Option.bind_eq_some.mp h with ⟨t1, h1, h2⟩
    obtain ⟨hb1, hp1⟩ := ih t1 t h2 (insertTree_bounded h1 hb)
    refine ⟨hb1, ?_⟩
    have hstep : (treePoints t1).Perm (p :: treePoints t0) := insertTree_perm h1
    have : (treePoints t).Perm (ps.reverse ++ (p :: treePoints t0)) :=
      hp1.trans (hstep.append_left ps.reverse)
    rw [List.reverse_cons, List.append_assoc]
    exact this

/-- Claim C7: `MAX_LEAF_SIZE` equals `32768 = 1 << 15`
(src/project/src/lib.rs:12), and in the (spec-modelled) octree every
leaf of a tree produced by inserting a point stream into an empty leaf
holds at most `MAX_LEAF_SIZE` points, while the concatenation of all
leaf point lists is a permutation of the inserted stream — so under
every branch the leaf point counts sum to the number of points routed
into it. -/
theorem octree_leaf_capacity (fuel : ℕ) (c : Cube) (ps : List V3)
    (t : OTree) (h : insertPoints fuel c ps = some t) :
    MAX_LEAF_SIZE = 32768 ∧ leavesBounded t ∧ (treePoints t).Perm ps := by
  obtain ⟨hb, hp⟩ := foldlM_insertTree ps (.leaf []) t h
    (by show ([] : List V3).length ≤ MAX_LEAF_SIZE; simp)
  refine ⟨rfl, hb, ?_⟩
  have : (ps.reverse ++ treePoints (OTree.leaf [])).Perm ps := by
    show (ps.reverse ++ []).Perm ps
    rw [List.append_nil]
    exact List.reverse_perm ps
  exact hp.trans this

/-- Witness for C7: inserting a single point yields the singleton leaf,
which is bounded and carries exactly that point. -/
theorem octree_leaf_capacity_witness :
    MAX_LEAF_SIZE = 32768 ∧ leavesBounded (OTree.leaf [v3zero]) ∧
    (treePoints (OTree.leaf [v3zero])).Perm [v3zero] :=
  octree_leaf_capacity 1 cubeUnit [v3zero] (OTree.leaf [v3zero]) rfl

/-! Helper lemmas for the `DataFile` byte model. -/

theorem encodeU64_length (n : ℕ) : (encodeU64 n).length = 8 := by
  simp [encodeU64]

theorem getD_append_left {l l' : List ℕ} {k : ℕ} (h : k < l.length) :
    (l ++ l').getD k 0 = l.getD k 0 := by
  rw [List.getD_eq_getElem?_getD, List.getD_eq_getElem?_getD,
    List.getElem?_append_left h]

theorem getD_append_right {l l' : List ℕ} {k : ℕ} (h : l.length ≤ k) :
    (l ++ l').getD k 0 = l'.getD (k - l.length) 0 := by
  rw [List.getD_eq_getElem?_getD, List.getD_eq_getElem?_getD,
    List.getElem?_append_right h]

theorem encodeU64_getD {n k : ℕ} (hk : k < 8) :
    (encodeU64 n).getD k 0 = n / 256 ^ k % 256 := by
  unfold encodeU64
  rw [List.getD_eq_getElem?_getD, List.getElem?_map, List.getElem?_range hk]
  rfl

theorem digits_sum_eq (n : ℕ) :
    ∀ m, (∑ k ∈ Finset.range m, n / 256 ^ k % 256 * 256 ^ k) = n % 256 ^ m := by
  intro m
  induction m with
  | zero => simp [Nat.mod_one]
  | succ m ih =>
    rw [Finset.sum_range_succ, ih, Nat.mod_pow_succ]
    ring

/-- Decoding eight little-endian digit bytes of `n < 2^64` recovers
`n`. -/
theorem readU64_of_bytes {s : FileState} {off n : ℕ} (hn : n < 2 ^ 64)
    (h : ∀ k < 8, s.byte (off + k) = n / 256 ^ k % 256) :
    readU64 s off = n := by
  unfold readU64
  have hterm : ∀ k ∈ Finset.range 8,
      s.byte (off + k) % 256 * 256 ^ k = n / 256 ^ k % 256 * 256 ^ k := by
    intro k hk
    rw [h k (Finset.mem_range.mp hk)]
    congr 1
    omega
  rw [Finset.sum_congr rfl hterm, digits_sum_eq]
  have h8 : (256 : ℕ) ^ 8 = 2 ^ 64 := by norm_num
  rw [h8]
  exact Nat.mod_eq_of_lt hn

theorem writeBytes_size_le (s : FileState) (off : ℕ) (bs : List ℕ) :
    s.size ≤ (writeBytes s off bs).size :=
  le_max_left _ _

theorem writeBytes_byte_in {s : FileState} {off : ℕ} {bs : List ℕ} {i : ℕ}
    (h1 : off ≤ i) (h2 : i < off + bs.length) :
    (writeBytes s off bs).byte i = bs.getD (i - off) 0 := by
  unfold writeBytes
  simp only []
  rw [if_pos ⟨h1, h2⟩]

theorem writeBytes_byte_out {s : FileState} {off : ℕ} {bs : List ℕ} {i : ℕ}
    (h : i < off ∨ off + bs.length ≤ i) :
    (writeBytes s off bs).byte i = s.byte i := by
  unfold writeBytes
  simp only []
  rw [if_neg (by omega)]

theorem save_size_le (sz : ℕ) (s : FileState) (idx : ℕ)
    (data : List (List ℕ)) : s.size ≤ (DataFile.save sz s idx data).size :=
  le_trans (writeBytes_size_le _ _ _) (writeBytes_size_le _ _ _)

theorem runSaves_size_le (sz : ℕ) (ops : List (ℕ × List (List ℕ))) :
    ∀ s : FileState, s.size ≤ (DataFile.runSaves sz s ops).size := by
  induction ops with
  | nil => intro s; exact le_rfl
  | cons e ops ih =>
    intro s
    exact le_trans (save_size_le sz s e.1 e.2) (ih _)

/-- A byte below the current end of file and outside a save's 16-byte
index slot is untouched by that save (the payload is appended at the
end, past every existing byte). -/
theorem save_byte_preserved {sz : ℕ} {s : FileState} {idx : ℕ}
    {data : List (List ℕ)} {i : ℕ} (h1 : i < s.size)
    (h2 : i < idx * 16 ∨ idx * 16 + 16 ≤ i) :
    (DataFile.save sz s idx data).byte i = s.byte i := by
  unfold DataFile.save
  simp only []
  rw [writeBytes_byte_out, writeBytes_byte_out]
  · exact Or.inl h1
  · rcases h2 with h2 | h2
    · exact Or.inl h2
    · refine Or.inr ?_
      rw [List.length_append, encodeU64_length, encodeU64_length]
      omega

/-- A byte below the current end of file and outside all the 16-byte
index slots touched by a run of saves is preserved by the whole run. -/
theorem runSaves_byte_preserved {sz : ℕ} {ops : List (ℕ × List (List ℕ))} :
    ∀ {s : FileState} {i : ℕ}, i < s.size →
      (∀ e ∈ ops, i < e.1 * 16 ∨ e.1 * 16 + 16 ≤ i) →
      (DataFile.runSaves sz s ops).byte i = s.byte i := by
  induction ops with
  | nil => intro s i _ _; rfl
  | cons e ops ih =>
    intro s i h1 h2
    have hstep : (DataFile.save sz s e.1 e.2).byte i = s.byte i :=
      save_byte_preserved h1 (h2 e (List.mem_cons_self _ _))
    have hsize : i < (DataFile.save sz s e.1 e.2).size :=
      lt_of_lt_of_le h1 (save_size_le _ _ _ _)
    exact (ih hsize (fun e' he' => h2 e' (List.mem_cons_of_mem _ he'))).trans hstep

/-- The 16 bytes of the index slot written by a save. -/
theorem save_byte_header {sz : ℕ} {s : FileState} {idx : ℕ}
    {data : List (List ℕ)} {k : ℕ} (hk : k < 16) :
    (DataFile.save sz s idx data).byte (idx * 16 + k)
      = (encodeU64 s.size ++ encodeU64 data.length).getD k 0 := by
  unfold DataFile.save
  simp only []
  rw [writeBytes_byte_in (Nat.le_add_right _ _)
    (by rw [List.length_append, encodeU64_length, encodeU64_length]; omega)]
  congr 1
  omega

/-- The payload bytes appended by a save, provided its index slot lies
inside the pre-existing file (true for every index below the capacity,
since the header region is allocated by `new`). -/
theorem save_byte_payload {sz : ℕ} {s : FileState} {idx : ℕ}
    {data : List (List ℕ)} {j : ℕ} (hj : j < data.flatten.length)
    (hdis : idx * 16 + 16 ≤ s.size) :
    (DataFile.save sz s idx data).byte (s.size + j) = data.flatten.getD j 0 := by
  unfold DataFile.save
  simp only []
  rw [writeBytes_byte_out (Or.inr (by
    rw [List.length_append, encodeU64_length, encodeU64_length]; omega))]
  rw [writeBytes_byte_in (Nat.le_add_right _ _) (by omega)]
  congr 1
  omega

theorem save_size_ge_payload (sz : ℕ) (s : FileState) (idx : ℕ)
    (data : List (List ℕ)) :
    s.size + data.flatten.length ≤ (DataFile.save sz s idx data).size := by
  unfold DataFile.save
  simp only []
  have h1 : s.size + data.flatten.length ≤ (writeBytes s s.size data.flatten).size :=
    le_max_right _ _
  exact le_trans h1 (writeBytes_size_le _ _ _)

theorem flatten_length_uniform {sz : ℕ} :
    ∀ {recs : List (List ℕ)}, (∀ r ∈ recs, r.length = sz) →
      recs.flatten.length = recs.length * sz := by
  intro recs
  induction recs with
  | nil => intro _; simp
  | cons r recs ih =>
    intro h
    rw [List.flatten_cons, List.length_append, List.length_cons,
      h r (List.mem_cons_self _ _), ih (fun r' hr' => h r' (List.mem_cons_of_mem _ hr'))]
    ring

theorem flatten_getD_uniform {sz : ℕ} :
    ∀ {recs : List (List ℕ)}, (∀ r ∈ recs, r.length = sz) →
      ∀ {k j : ℕ}, k < recs.length → j < sz →
      recs.flatten.getD (k * sz + j) 0 = (recs.getD k []).getD j 0 := by
  intro recs
  induction recs with
  | nil => intro _ k j hk _; cases hk
  | cons r recs ih =>
    intro h k j hk hj
    rw [List.flatten_cons]
    cases k with
    | zero =>
      have hlen : j < r.length := by
        rw [h r (List.mem_cons_self _ _)]; exact hj
      rw [Nat.zero_mul, Nat.zero_add, getD_append_left hlen, List.getD_cons_zero]
    | succ k =>
      have hoff : (k + 1) * sz + j = r.length + (k * sz + j) := by
        rw [h r (List.mem_cons_self _ _)]; ring
      rw [hoff, getD_append_right (Nat.le_add_right _ _), Nat.add_sub_cancel_left,
        List.getD_cons_succ]
      exact ih (fun r' hr' => h r' (List.mem_cons_of_mem _ hr'))
        (Nat.lt_of_succ_lt_succ hk) hj

theorem range_map_getD {α : Type} (l : List α) (d : α) :
    (List.range l.length).map (fun k => l.getD k d) = l := by
  induction l with
  | nil => rfl
  | cons a l ih =>
    rw [List.length_cons, List.range_succ_eq_map, List.map_cons, List.map_map]
    exact congrArg (a :: ·) ih

/-- Claim C9: `DataFile` save/read round-trip
(src/project/src/lib.rs:144-172).  Starting from a fresh file of
capacity `size`, after arbitrary prior saves at indices below the
capacity, a save of `data` at `idx < size` followed by arbitrary further
saves at other indices below the capacity, `read idx` returns exactly
`data`.  The `pos`/`count` index pair must fit in `u64` (hypotheses
`hpos`/`hcnt`), and records are `sz` bytes wide as `bytemuck` casts
them. -/
theorem datafile_save_read_roundtrip (sz size idx : ℕ)
    (data : List (List ℕ)) (pre post : List (ℕ × List (List ℕ)))
    (hidx : idx < size)
    (hdata : ∀ r ∈ data, r.length = sz)
    (hpost : ∀ e ∈ post, e.1 < size ∧ e.1 ≠ idx)
    (hpos : (DataFile.runSaves sz (DataFile.new size) pre).size < 2 ^ 64)
    (hcnt : data.length < 2 ^ 64) :
    DataFile.read sz
      (DataFile.runSaves sz
        (DataFile.save sz (DataFile.runSaves sz (DataFile.new size) pre)
          idx data)
        post) idx = data := by
  set smid := DataFile.runSaves sz (DataFile.new size) pre with hsmid
  set ssav := DataFile.save sz smid idx data with hssav
  set sfin := DataFile.runSaves sz ssav post with hsfin
  have hnew : (DataFile.new size).size = size * 16 := rfl
  have hmid_ge : size * 16 ≤ smid.size := by
    rw [← hnew]
    exact runSaves_size_le sz pre _
  have hdis : idx * 16 + 16 ≤ smid.size := le_trans (by omega) hmid_ge
  have hsav_ge : smid.size + data.flatten.length ≤ ssav.size :=
    save_size_ge_payload sz smid idx data
  have hL : data.flatten.length = data.length * sz := flatten_length_uniform hdata
  have hhdr : ∀ k, k < 16 → sfin.byte (idx * 16 + k)
      = (encodeU64 smid.size ++ encodeU64 data.length).getD k 0 := by
    intro k hk
    have hlt : idx * 16 + k < ssav.size := by
      have := save_size_le sz smid idx data
      omega
    have hblocks : ∀ e ∈ post,
        idx * 16 + k < e.1 * 16 ∨ e.1 * 16 + 16 ≤ idx * 16 + k := by
      intro e he
      have h := hpost e he
      omega
    exact (runSaves_byte_preserved hlt hblocks).trans (save_byte_header hk)
  have hpos' : readU64 sfin (idx * 16) = smid.size := by
    refine readU64_of_bytes hpos ?_
    intro k hk
    rw [hhdr k (by omega),
      getD_append_left (by rw [encodeU64_length]; omega), encodeU64_getD hk]
  have hcnt' : readU64 sfin (idx * 16 + 8) = data.length := by
    refine readU64_of_bytes hcnt ?_
    intro k hk
    have h1 : idx * 16 + 8 + k = idx * 16 + (8 + k) := by omega
    rw [h1, hhdr (8 + k) (by omega),
      getD_append_right (by rw [encodeU64_length]; omega)]
    rw [encodeU64_length, show 8 + k - 8 = k from by omega, encodeU64_getD hk]
  have hpay : ∀ j, j < data.flatten.length →
      sfin.byte (smid.size + j) = data.flatten.getD j 0 := by
    intro j hj
    have hlt : smid.size + j < ssav.size := by omega
    have hblocks : ∀ e ∈ post,
        smid.size + j < e.1 * 16 ∨ e.1 * 16 + 16 ≤ smid.size + j := by
      intro e he
      have h := hpost e he
      right
      have h16 : e.1 * 16 + 16 ≤ size * 16 := by omega
      omega
    exact (runSaves_byte_preserved hlt hblocks).trans (save_byte_payload hj hdis)
  unfold DataFile.read
  simp only []
  rw [hpos', hcnt']
  have hrec : ∀ k ∈ List.range data.length,
      readBytes sfin (smid.size + k * sz) sz = data.getD k [] := by
    intro k hkmem
    have hk := List.mem_range.mp hkmem
    have hmemrec : data.getD k [] ∈ data := by
      rw [List.getD_eq_getElem data [] hk]
      exact List.getElem_mem hk
    have hreclen : (data.getD k []).length = sz := hdata _ hmemrec
    unfold readBytes
    have hmap : (List.range sz).map (fun j => sfin.byte (smid.size + k * sz + j))
        = (List.range sz).map (fun j => (data.getD k []).getD j 0) := by
      refine List.map_congr_left ?_
      intro j hjmem
      have hj := List.mem_range.mp hjmem
      have hjL : k * sz + j < data.flatten.length := by
        rw [hL]
        calc k * sz + j < k * sz + sz := by omega
          _ = (k + 1) * sz := by ring
          _ ≤ data.length * sz := Nat.mul_le_mul_right sz hk
      have hassoc : smid.size + k * sz + j = smid.size + (k * sz + j) := by omega
      rw [hassoc, hpay _ hjL, flatten_getD_uniform hdata hk hj]
    rw [hmap, ← hreclen]
    exact range_map_getD _ 0
  exact (List.map_congr_left hrec).trans (range_map_getD data [])

/-- Witness for C9: capacity 2, one record of one byte saved at index 0,
a later save at index 1, then reading index 0 returns the record. -/
theorem datafile_save_read_roundtrip_witness :
    DataFile.read 1
      (DataFile.runSaves 1
        (DataFile.save 1 (DataFile.runSaves 1 (DataFile.new 2) []) 0 [[7]])
        [(1, [[9]])]) 0 = [[7]] :=
  datafile_save_read_roundtrip 1 2 0 [[7]] [] [(1, [[9]])]
    (by decide) (by decide) (by decide) (by decide) (by decide)

/-- Claim C5 (counterexample): the claim says the eigenvalue ratio is
mapped "by multiplying by u32::MAX and truncating", i.e.
`⌊ratio * 4294967295⌋`.  On the six axis points the neighborhood
covariance matrix is exactly `diag(4/3, 1/3, 1/3)`, whose eigenvalue
ratio `3·λ_min/(λ0+λ1+λ2)` is `1/2`; the program's `curve` output there
is `2147483648` (multiplication by the `f32` rounding `2^32` of
`u32::MAX`), while the claimed truncation of `ratio * 4294967295` is
`2147483647`. -/
theorem calculate_curve_mapping_counterexample :
    covMat envAxes dataAxes (dataAxes.getD 0 v3zero)
      = ⟨⟨4 / 3, 0, 0⟩, ⟨0, 1 / 3, 0⟩, ⟨0, 0, 1 / 3⟩⟩ ∧
    (3 * minEigen (envAxes.eigenvalues
        (covMat envAxes dataAxes (dataAxes.getD 0 v3zero))))
      / ((envAxes.eigenvalues (covMat envAxes dataAxes (dataAxes.getD 0 v3zero))).x
        + (envAxes.eigenvalues (covMat envAxes dataAxes (dataAxes.getD 0 v3zero))).y
        + (envAxes.eigenvalues (covMat envAxes dataAxes (dataAxes.getD 0 v3zero))).z)
      = 1 / 2 ∧
    ((calculate envAxes dataAxes 1).1.getD 0 default).curve = 2147483648 ∧
    (⌊(1 / 2 : ℚ) * 4294967295⌋).toNat = 2147483647 ∧
    ((calculate envAxes dataAxes 1).1.getD 0 default).curve
      ≠ (⌊(1 / 2 : ℚ) * 4294967295⌋).toNat := by
  have g0 : dataAxes[0]?.getD v3zero = ⟨2, 0, 0⟩ := rfl
  have g1 : dataAxes[1]?.getD v3zero = ⟨-2, 0, 0⟩ := rfl
  have g2 : dataAxes[2]?.getD v3zero = ⟨0, 1, 0⟩ := rfl
  have g3 : dataAxes[3]?.getD v3zero = ⟨0, -1, 0⟩ := rfl
  have g4 : dataAxes[4]?.getD v3zero = ⟨0, 0, 1⟩ := rfl
  have g5 : dataAxes[5]?.getD v3zero = ⟨0, 0, -1⟩ := rfl
  have hratio : (3 * minEigen (envAxes.eigenvalues
        (covMat envAxes dataAxes (dataAxes.getD 0 v3zero))))
      / ((envAxes.eigenvalues (covMat envAxes dataAxes (dataAxes.getD 0 v3zero))).x
        + (envAxes.eigenvalues (covMat envAxes dataAxes (dataAxes.getD 0 v3zero))).y
        + (envAxes.eigenvalues (covMat envAxes dataAxes (dataAxes.getD 0 v3zero))).z)
      = 1 / 2 := by
    simp [envAxes, minEigen]
    norm_num
  have hcurve : ((calculate envAxes dataAxes 1).1.getD 0 default).curve
      = 2147483648 := by
    rw [calculate_getD envAxes dataAxes 1 0 (by simp [dataAxes])]
    show map_to_u32 ((3 * (envAxes.eigenvalues
        (covMat envAxes dataAxes (dataAxes.getD 0 v3zero))).z)
      / ((envAxes.eigenvalues (covMat envAxes dataAxes (dataAxes.getD 0 v3zero))).x
        + (envAxes.eigenvalues (covMat envAxes dataAxes (dataAxes.getD 0 v3zero))).y
        + (envAxes.eigenvalues (covMat envAxes dataAxes (dataAxes.getD 0 v3zero))).z))
      = 2147483648
    have hv : (3 * (envAxes.eigenvalues
          (covMat envAxes dataAxes (dataAxes.getD 0 v3zero))).z)
        / ((envAxes.eigenvalues (covMat envAxes dataAxes (dataAxes.getD 0 v3zero))).x
          + (envAxes.eigenvalues (covMat envAxes dataAxes (dataAxes.getD 0 v3zero))).y
          + (envAxes.eigenvalues (covMat envAxes dataAxes (dataAxes.getD 0 v3zero))).z)
        = 1 / 2 := by
      simp [envAxes]
      norm_num
    rw [hv, map_to_u32_eq_floor (by norm_num)]
    norm_num
    decide
  have hfloor : (⌊(1 / 2 : ℚ) * 4294967295⌋).toNat = 2147483647 := by
    norm_num
    decide
  refine ⟨?_, hratio, hcurve, hfloor, by rw [hcurve, hfloor]; decide⟩
  have hns : nbrPositions envAxes dataAxes (dataAxes.getD 0 v3zero)
      = [⟨2, 0, 0⟩, ⟨-2, 0, 0⟩, ⟨0, 1, 0⟩, ⟨0, -1, 0⟩, ⟨0, 0, 1⟩, ⟨0, 0, -1⟩] := by
    simp [nbrPositions, envAxes, g0, g1, g2, g3, g4, g5]
  have hmean : nbrMean envAxes dataAxes (dataAxes.getD 0 v3zero) = ⟨0, 0, 0⟩ := by
    simp only [nbrMean]
    rw [hns]
    simp [V3.mk.injEq]
  simp only [covMat]
  rw [hns, hmean]
  simp [M3.mk.injEq, V3.mk.injEq]
  norm_num
